import Mathlib

/-!
Verification of the Blender scripting-layer operators in this repository:

* `scripts/startup/bl_operators/grease_pencil.py` —
  `GREASE_PENCIL_OT_relative_layer_mask_add` (layer masking) and
  `GREASE_PENCIL_OT_perspective_warp` (4-point perspective warp of a
  grease-pencil stroke, with a homogeneous 8×8 linear solve).
* `scripts/templates_py/operator_modal_draw.py` —
  `ModalDrawOperator` (freehand stroke drawing in a modal event loop) and the
  `StrokeUndo` / `StrokeRedo` operators over two module-global lists.

The Python code is shallowly embedded: machine floats are modelled as exact
rationals (`ℚ`), `np.linalg.solve` is modelled by exact Gaussian elimination
(returning `none` exactly where NumPy raises `LinAlgError`, i.e. on a singular
system), Blender's operator status sets are modelled by an inductive type, and
the Python list objects of the drawing template — which are aliased mutable
objects — are modelled by an explicit store of list cells addressed by `Nat`
references.
-/

/-- Blender operator status codes (the `{'FINISHED'}`-style return sets). -/
inductive OpStatus where
  | FINISHED
  | CANCELLED
  | RUNNING_MODAL
  | PASS_THROUGH
deriving DecidableEq, Repr

/-! ## Exact linear solver (model of `np.linalg.solve`)

`np.linalg.solve(A, B)` returns the unique solution of the square system
`A X = B` and raises `LinAlgError` when `A` is singular.  We model it over `ℚ`
by Gaussian elimination: at each stage pick the first row with a nonzero
leading coefficient as pivot, eliminate the leading column from the remaining
rows, solve the reduced system, and back-substitute.  The elimination fails
(returns `none`) exactly when some stage has no nonzero leading coefficient,
which for a square system happens exactly when `A` is singular. -/

/-- Dot product of two rational lists (truncating at the shorter list). -/
def dotQ : List ℚ → List ℚ → ℚ
  | a :: as, b :: bs => a * b + dotQ as bs
  | _, _ => 0

/-- Eliminate the leading column of a row using the pivot row `(a :: as, b)`:
subtract `(head/a)` times the pivot row. -/
def reduceRow (a : ℚ) (as : List ℚ) (b : ℚ) : List ℚ × ℚ → List ℚ × ℚ
  | (c :: cs, d) => (List.zipWith (fun x p => x - c / a * p) cs as, d - c / a * b)
  | ([], d) => ([], d)

/-- Find the first row with a nonzero leading coefficient; return it (split
into leading coefficient, tail and right-hand side) together with all the
remaining rows, in their original order. -/
def findPivot : List (List ℚ × ℚ) → Option ((ℚ × List ℚ × ℚ) × List (List ℚ × ℚ))
  | [] => none
  | r :: rest =>
    match r with
    | (a :: as, b) =>
      if a = 0 then
        (findPivot rest).map (fun pr => (pr.1, r :: pr.2))
      else
        some ((a, as, b), rest)
    | ([], _) => none

/-- Gaussian elimination with back-substitution on an augmented row list,
recursing on the number of unknowns. -/
def linSolveAux : Nat → List (List ℚ × ℚ) → Option (List ℚ)
  | 0, _ => some []
  | n + 1, rows =>
    match findPivot rows with
    | none => none
    | some ((a, as, b), others) =>
      match linSolveAux n (others.map (reduceRow a as b)) with
      | none => none
      | some xs => some ((b - dotQ as xs) / a :: xs)

/-- A 3×3 matrix with rational entries (model of `mathutils.Matrix`). -/
structure Mat3 where
  m00 : ℚ
  m01 : ℚ
  m02 : ℚ
  m10 : ℚ
  m11 : ℚ
  m12 : ℚ
  m20 : ℚ
  m21 : ℚ
  m22 : ℚ
deriving DecidableEq, Repr

/-- A 3-component vector (model of `mathutils.Vector`). -/
structure Vec3 where
  x : ℚ
  y : ℚ
  z : ℚ
deriving DecidableEq, Repr

/-- Matrix-vector product `M @ v` for `Mat3`. -/
def mat3MulVec (M : Mat3) (v : Vec3) : Vec3 :=
  ⟨M.m00 * v.x + M.m01 * v.y + M.m02 * v.z,
   M.m10 * v.x + M.m11 * v.y + M.m12 * v.z,
   M.m20 * v.x + M.m21 * v.y + M.m22 * v.z⟩

/-- The homogeneous image `M @ (px, py, 1)` of a 2-D point, as in
`mat @ Vector((p.co.x, p.co.y, 1.0))` in `finish`. -/
def mat3ApplyHom (M : Mat3) (px py : ℚ) : Vec3 :=
  mat3MulVec M ⟨px, py, 1⟩

/-- The augmented rows of the 8×8 system assembled by `compute_matrix`:
for each correspondence `(x, y) ↦ (u, v)` the two rows
`[x, y, 1, 0, 0, 0, -u*x, -u*y] = u` and `[0, 0, 0, x, y, 1, -v*x, -v*y] = v`. -/
def perspectiveRows (src dst : List (ℚ × ℚ)) : List (List ℚ × ℚ) :=
  (src.zip dst).flatMap (fun sd =>
    [([sd.1.1, sd.1.2, 1, 0, 0, 0, -sd.2.1 * sd.1.1, -sd.2.1 * sd.1.2], sd.2.1),
     ([0, 0, 0, sd.1.1, sd.1.2, 1, -sd.2.2 * sd.1.1, -sd.2.2 * sd.1.2], sd.2.2)])

/-- Model of `GREASE_PENCIL_OT_perspective_warp.compute_matrix`: assemble the
8×8 system for the four source/destination correspondences, solve it, and
build the 3×3 matrix whose last entry is the constant `1`.  Returns `none`
exactly where `np.linalg.solve` raises (singular system). -/
def compute_matrix (src dst : List (ℚ × ℚ)) : Option Mat3 :=
  match linSolveAux 8 (perspectiveRows src dst) with
  | none => none
  | some X =>
    some ⟨X.getD 0 0, X.getD 1 0, X.getD 2 0,
          X.getD 3 0, X.getD 4 0, X.getD 5 0,
          X.getD 6 0, X.getD 7 0, 1⟩

/-! ## `GREASE_PENCIL_OT_relative_layer_mask_add`

A grease-pencil layer is modelled by the fields the operator touches: its mask
list (Blender's `mask_layers` collection is keyed by layer name, so membership
`masking_layer.name in active_layer.mask_layers` is name membership), its
`use_masks` flag, and its neighbouring tree nodes `next_node` / `prev_node`,
which may be absent or may be a non-layer node (a layer group). -/

/-- A node of the grease-pencil layer tree: a layer or a layer group. -/
inductive LayerNode where
  | layerNode (name : String)
  | groupNode (name : String)
deriving DecidableEq, Repr

/-- The fields of a grease-pencil layer used by the mask-add operator. -/
structure GPLayer where
  mask_layers : List String
  use_masks : Bool
  next_node : Option LayerNode
  prev_node : Option LayerNode
deriving DecidableEq, Repr

/-- The operator's `mode` enum property (`'ABOVE'` or `'BELOW'`). -/
inductive MaskMode where
  | ABOVE
  | BELOW
deriving DecidableEq, Repr

/-- Model of `GREASE_PENCIL_OT_relative_layer_mask_add.execute`.  Returns the
status code, the resulting active layer, and the report string if any.  The
host operator `bpy.ops.grease_pencil.layer_mask_add(name=...)` is modelled as
appending `name` to the active layer's mask list. -/
def relative_layer_mask_add_execute (mode : MaskMode) (active : GPLayer) :
    OpStatus × GPLayer × Option String :=
  let masking_layer := match mode with
    | .ABOVE => active.next_node
    | .BELOW => active.prev_node
  match masking_layer with
  | some (.layerNode name) =>
    if name ∈ active.mask_layers then
      (.CANCELLED, active, some "Layer is already added as a mask")
    else
      (.FINISHED,
       { active with mask_layers := active.mask_layers ++ [name], use_masks := true },
       none)
  | _ => (.CANCELLED, active, some "No layer found")

/-! ## `GREASE_PENCIL_OT_perspective_warp`

A stroke point carries the two coordinates the operator reads and writes
(`p.co.x`, `p.co.y`); a stroke is its point list; the active frame is its
stroke list.  The operator state holds `_src_bbox`, the `_handles` (the four
`WarpHandle` empties, modelled by their locations), `_confirm`, and the frame
being edited.  Paths on which the Python code raises (`frame.strokes[0]` on an
empty collection, `np.linalg.solve` on a singular system, `min`/`max` over an
empty point sequence) are modelled by `none` / `InvokeRes.error`. -/

/-- A stroke point's planar coordinates `(co.x, co.y)`. -/
abbrev GPPoint := ℚ × ℚ

/-- A grease-pencil stroke: its point list. -/
abbrev GPStroke := List GPPoint

/-- The active frame: its stroke list. -/
abbrev GPFrame := List GPStroke

/-- The state of a running `GREASE_PENCIL_OT_perspective_warp` operator. -/
structure PWState where
  src_bbox : List GPPoint
  handles : List (ℚ × ℚ × ℚ)
  confirm : Bool
  strokes : GPFrame
deriving DecidableEq, Repr

/-- Result of `invoke`: a cancellation with its report, an uncaught Python
exception, or entry into the modal loop with the operator state and the
`'INFO'` report. -/
inductive InvokeRes where
  | cancelled (report : String)
  | error
  | running (st : PWState) (report : String)
deriving DecidableEq, Repr

/-- Whether an `invoke` result entered the modal loop. -/
def InvokeRes.isRunning : InvokeRes → Bool
  | .running _ _ => true
  | _ => false

/-- Model of `GREASE_PENCIL_OT_perspective_warp.invoke`.  The argument is the
active frame, `none` standing for `layer.frames.active is None`.  On success
the handles are created at the corners of the stroke's bounding box with
`z = 0` and `_confirm` keeps its default `False`. -/
def perspective_warp_invoke (frame : Option GPFrame) : InvokeRes :=
  match frame with
  | none => .cancelled "No stroke available"
  | some f =>
    match f with
    | [] => .cancelled "No stroke available"
    | [stroke] =>
      match stroke with
      | [] => .error
      | p :: ps =>
        let min_x := ps.foldl (fun m q => min m q.1) p.1
        let max_x := ps.foldl (fun m q => max m q.1) p.1
        let min_y := ps.foldl (fun m q => min m q.2) p.2
        let max_y := ps.foldl (fun m q => max m q.2) p.2
        let src_bbox := [(min_x, min_y), (max_x, min_y), (max_x, max_y), (min_x, max_y)]
        .running
          ⟨src_bbox, src_bbox.map (fun co => (co.1, co.2, 0)), false, f⟩
          "Move handles and press Enter to confirm"
    | _ :: _ :: _ => .cancelled "Only one stroke allowed per layer"

/-- Model of `GREASE_PENCIL_OT_perspective_warp.finish`.  When `_confirm` is
set, read the destination quad off the handle locations, solve for the warp
matrix and rewrite each point of the first stroke; in every case remove the
four handle objects.  `none` models an uncaught exception (no stroke to index,
or singular system). -/
def perspective_warp_finish (st : PWState) : Option (OpStatus × PWState) :=
  if st.confirm then
    match st.strokes with
    | [] => none
    | stroke :: rest =>
      let dst := st.handles.map (fun h => (h.1, h.2.1))
      match compute_matrix st.src_bbox dst with
      | none => none
      | some mat =>
        let stroke' := stroke.map (fun p =>
          let vec := mat3ApplyHom mat p.1 p.2
          (vec.x / vec.z, vec.y / vec.z))
        some (.FINISHED, { st with strokes := stroke' :: rest, handles := [] })
  else
    some (.FINISHED, { st with handles := [] })

/-! ## Events

One event type covers both modal operators; `OTHER` stands for every key the
handlers fall through on. -/

/-- The event types the two modal handlers inspect. -/
inductive EvType where
  | LEFTMOUSE
  | RIGHTMOUSE
  | MOUSEMOVE
  | ESC
  | Z
  | Y
  | RET
  | NUMPAD_ENTER
  | OTHER
deriving DecidableEq, Repr

/-- The event values the handlers inspect (`NOTHING` for any other value). -/
inductive EvValue where
  | PRESS
  | RELEASE
  | NOTHING
deriving DecidableEq, Repr

/-- A window-manager event: type, value and region-relative mouse position. -/
structure Event where
  type : EvType
  value : EvValue
  mouse_region_x : ℤ
  mouse_region_y : ℤ
deriving DecidableEq, Repr

/-- Model of `GREASE_PENCIL_OT_perspective_warp.modal`: Enter confirms and
finishes, Escape finishes without confirming, everything else passes through. -/
def perspective_warp_modal (st : PWState) (e : Event) : Option (OpStatus × PWState) :=
  if e.type = .RET ∨ e.type = .NUMPAD_ENTER then
    perspective_warp_finish { st with confirm := true }
  else if e.type = .ESC then
    perspective_warp_finish { st with confirm := false }
  else
    some (.PASS_THROUGH, st)

/-! ## `operator_modal_draw.py`

The module globals `strokes`, `redo_stack` and `current_stroke` are Python
lists holding (references to) mutable point-list objects; `current_stroke`
always aliases the list object that mouse moves append to, and a stroke begun
with `LEFTMOUSE` press *is* (by reference) the last element of `strokes`.  We
model the list objects as cells of a `store` addressed by `Nat` references:
`strokes` and `redo_stack` are lists of references, `current_stroke` is a
reference.  A fresh cell is always appended at index `store.length`, so a
fresh reference never collides with a live one.  In the Python module
`current_stroke` is initialised to `[]` and is reassigned only to `[]` or to
the newly begun stroke — it is never `None`, so the guard
`current_stroke is not None` on the `MOUSEMOVE` branch is always true and the
model has no `Option` on it.  The registered viewport draw handler is
modelled by the flag `handle_installed`. -/

/-- The state of the drawing template: the store of list objects, the two
global reference lists, the current-stroke reference, and whether the draw
handler is installed. -/
structure DrawState where
  store : List (List (ℤ × ℤ))
  strokes : List Nat
  redo_stack : List Nat
  current_stroke : Nat
  handle_installed : Bool
deriving DecidableEq, Repr

/-- The module state right after registration: `strokes = []`,
`redo_stack = []`, `current_stroke = []` (one cell in the store). -/
def drawInit : DrawState :=
  ⟨[[]], [], [], 0, true⟩

/-- Model of `ModalDrawOperator.modal`.  Branches in source order:
cancel keys, `LEFTMOUSE` press/release, `MOUSEMOVE`, `Z` undo, `Y` redo,
fall-through. -/
def modal_draw_modal (s : DrawState) (e : Event) : OpStatus × DrawState :=
  if e.type = .RIGHTMOUSE ∨ e.type = .ESC then
    (.CANCELLED, { s with handle_installed := false })
  else if e.type = .LEFTMOUSE then
    if e.value = .PRESS then
      (.RUNNING_MODAL,
       { s with store := s.store ++ [[]],
                current_stroke := s.store.length,
                strokes := s.strokes ++ [s.store.length],
                redo_stack := [] })
    else if e.value = .RELEASE then
      (.RUNNING_MODAL,
       { s with store := s.store ++ [[]], current_stroke := s.store.length })
    else
      (.RUNNING_MODAL, s)
  else if e.type = .MOUSEMOVE then
    (.RUNNING_MODAL,
     { s with store := (s.store.set s.current_stroke
          (s.store.getD s.current_stroke [] ++ [(e.mouse_region_x, e.mouse_region_y)])) })
  else if e.type = .Z ∧ e.value = .PRESS then
    match s.strokes.getLast? with
    | some t =>
      (.RUNNING_MODAL,
       { s with strokes := s.strokes.dropLast, redo_stack := s.redo_stack ++ [t] })
    | none => (.RUNNING_MODAL, s)
  else if e.type = .Y ∧ e.value = .PRESS then
    match s.redo_stack.getLast? with
    | some t =>
      (.RUNNING_MODAL,
       { s with redo_stack := s.redo_stack.dropLast, strokes := s.strokes ++ [t] })
    | none => (.RUNNING_MODAL, s)
  else
    (.RUNNING_MODAL, s)

/-- Model of `StrokeUndo.execute`: if `strokes` is non-empty, pop its last
element and append it to `redo_stack`; always `FINISHED`. -/
def stroke_undo_execute (s : DrawState) : OpStatus × DrawState :=
  match s.strokes.getLast? with
  | some t =>
    (.FINISHED, { s with strokes := s.strokes.dropLast, redo_stack := s.redo_stack ++ [t] })
  | none => (.FINISHED, s)

/-- Model of `StrokeRedo.execute`: if `redo_stack` is non-empty, pop its last
element and append it to `strokes`; always `FINISHED`. -/
def stroke_redo_execute (s : DrawState) : OpStatus × DrawState :=
  match s.redo_stack.getLast? with
  | some t =>
    (.FINISHED, { s with redo_stack := s.redo_stack.dropLast, strokes := s.strokes ++ [t] })
  | none => (.FINISHED, s)


/-! ## Solver lemmas

`linSolveAux` is sound (whatever it returns solves every row) and complete
(whenever the square system has exactly one solution it succeeds).  Together
these pin the returned vector down as the unique solution of the system,
which is the contract of `np.linalg.solve` on a nonsingular matrix. -/

/-- Dot product against the empty vector is zero. -/
theorem dotQ_nil_right (l : List ℚ) : dotQ l [] = 0 := by
  cases l <;> rfl

/-- Unfolding lemma for `dotQ` on cons cells. -/
theorem dotQ_cons (a : ℚ) (as : List ℚ) (x : ℚ) (xs : List ℚ) :
    dotQ (a :: as) (x :: xs) = a * x + dotQ as xs := rfl

/-- Row reduction interacts with the dot product linearly. -/
theorem dotQ_zipWith_sub (k : ℚ) (cs : List ℚ) :
    ∀ (as xs : List ℚ), cs.length = as.length →
      dotQ (List.zipWith (fun x p => x - k * p) cs as) xs
        = dotQ cs xs - k * dotQ as xs := by
  induction cs with
  | nil =>
    intro as xs h
    cases as with
    | nil => simp [dotQ]
    | cons a as => simp at h
  | cons c cs ih =>
    intro as xs h
    cases as with
    | nil => simp at h
    | cons a as =>
      cases xs with
      | nil => simp [dotQ_nil_right]
      | cons x xs =>
        rw [List.zipWith_cons_cons, dotQ_cons, dotQ_cons, dotQ_cons,
          ih as xs (by simpa using h)]
        ring

/-- What a successful pivot search guarantees: a nonzero pivot that is one of
the rows, the remaining rows being exactly the other rows. -/
theorem findPivot_some (rows : List (List ℚ × ℚ)) :
    ∀ (a : ℚ) (as : List ℚ) (b : ℚ) (others : List (List ℚ × ℚ)),
    findPivot rows = some ((a, as, b), others) →
    a ≠ 0 ∧ (a :: as, b) ∈ rows ∧
      (∀ r ∈ rows, r = (a :: as, b) ∨ r ∈ others) ∧
      (∀ r ∈ others, r ∈ rows) ∧
      others.length + 1 = rows.length := by
  induction rows with
  | nil => intro a as b others h; simp [findPivot] at h
  | cons r rest ih =>
    intro a as b others h
    obtain ⟨rl, d⟩ := r
    cases rl with
    | nil => simp [findPivot] at h
    | cons c cs =>
      by_cases hc : c = 0
      · subst hc
        cases hfp : findPivot rest with
        | none => simp [findPivot, hfp] at h
        | some pr =>
          obtain ⟨⟨a', as', b'⟩, os⟩ := pr
          simp only [findPivot, hfp] at h
          simp only [if_true, Option.map_some', Option.some.injEq, Prod.mk.injEq] at h
          obtain ⟨⟨rfl, rfl, rfl⟩, rfl⟩ := h
          obtain ⟨ha, hmem, hcover, hsub, hlen⟩ := ih a' as' b' os hfp
          refine ⟨ha, List.mem_cons_of_mem _ hmem, ?_, ?_, ?_⟩
          · intro r hr
            rcases List.mem_cons.mp hr with rfl | hr'
            · exact Or.inr (List.mem_cons_self _ _)
            · rcases hcover r hr' with h' | h'
              · exact Or.inl h'
              · exact Or.inr (List.mem_cons_of_mem _ h')
          · intro r hr
            rcases List.mem_cons.mp hr with rfl | hr'
            · exact List.mem_cons_self _ _
            · exact List.mem_cons_of_mem _ (hsub r hr')
          · simp only [List.length_cons]
            omega
      · simp only [findPivot] at h
        rw [if_neg hc] at h
        simp only [Option.some.injEq, Prod.mk.injEq] at h
        obtain ⟨⟨rfl, rfl, rfl⟩, rfl⟩ := h
        exact ⟨hc, List.mem_cons_self _ _,
          fun r hr => List.mem_cons.mp hr,
          fun r hr => List.mem_cons_of_mem _ hr,
          by simp⟩

/-- When pivot search fails on rows that all still have entries, every row
has leading coefficient zero. -/
theorem findPivot_none_heads (rows : List (List ℚ × ℚ))
    (h : findPivot rows = none) (hne : ∀ r ∈ rows, r.1 ≠ []) :
    ∀ r ∈ rows, ∃ cs d, r = (0 :: cs, d) := by
  induction rows with
  | nil => intro r hr; simp at hr
  | cons r0 rest ih =>
    obtain ⟨rl, d0⟩ := r0
    cases rl with
    | nil => exact absurd rfl (hne ([], d0) (List.mem_cons_self _ _))
    | cons c cs =>
      by_cases hc : c = 0
      · subst hc
        cases hfp : findPivot rest with
        | none =>
          intro r hr
          rcases List.mem_cons.mp hr with rfl | hr'
          · exact ⟨cs, d0, rfl⟩
          · exact ih hfp (fun r' hr'' => hne r' (List.mem_cons_of_mem _ hr'')) r hr'
        | some pr =>
          exfalso
          simp [findPivot, hfp] at h
      · exfalso
        simp [findPivot, hc] at h

/-- Back-substitution algebra: a row whose reduction against the pivot is
satisfied by `ys` is satisfied by `ys` extended with the pivot value. -/
theorem reduced_row_sat (a : ℚ) (as : List ℚ) (b c : ℚ) (cs : List ℚ) (d : ℚ)
    (ys : List ℚ) (hlen : cs.length = as.length)
    (hred : dotQ (List.zipWith (fun x p => x - c / a * p) cs as) ys = d - c / a * b) :
    dotQ (c :: cs) ((b - dotQ as ys) / a :: ys) = d := by
  rw [dotQ_zipWith_sub (c / a) cs as ys hlen] at hred
  rw [dotQ_cons]
  linear_combination hred

/-- Forward-elimination algebra: a vector satisfying both a row and the pivot
row satisfies the row's reduction (pivot value dropped). -/
theorem row_sat_reduced (a : ℚ) (ha : a ≠ 0) (as : List ℚ) (b c : ℚ)
    (cs : List ℚ) (d x : ℚ) (ys : List ℚ) (hlen : cs.length = as.length)
    (hpiv : dotQ (a :: as) (x :: ys) = b)
    (hrow : dotQ (c :: cs) (x :: ys) = d) :
    dotQ (List.zipWith (fun x p => x - c / a * p) cs as) ys = d - c / a * b := by
  rw [dotQ_cons] at hpiv hrow
  rw [dotQ_zipWith_sub (c / a) cs as ys hlen]
  have hcan : c / a * a = c := div_mul_cancel₀ c ha
  linear_combination hrow - (c / a) * hpiv + x * hcan

/-- Rows of the reduced system are one entry shorter. -/
theorem reduced_lengths (a : ℚ) (as : List ℚ) (b : ℚ) (n : Nat)
    (has : as.length = n) (others : List (List ℚ × ℚ))
    (hothers_len : ∀ r ∈ others, r.1.length = n + 1) :
    ∀ r' ∈ others.map (reduceRow a as b), r'.1.length = n := by
  intro r' hr'
  simp only [List.mem_map] at hr'
  obtain ⟨r, hr, rfl⟩ := hr'
  obtain ⟨rl, d⟩ := r
  cases rl with
  | nil => have := hothers_len _ hr; simp at this
  | cons c cs =>
    have := hothers_len _ hr
    simp only [List.length_cons] at this
    simp only [reduceRow, List.length_zipWith]
    omega

/-- A solution of the reduced system extends by back-substitution to a
solution of every original row. -/
theorem sat_extend (a : ℚ) (ha : a ≠ 0) (as : List ℚ) (b : ℚ) (n : Nat)
    (has : as.length = n) (rows others : List (List ℚ × ℚ))
    (hcover : ∀ r ∈ rows, r = (a :: as, b) ∨ r ∈ others)
    (hothers_len : ∀ r ∈ others, r.1.length = n + 1)
    (ys : List ℚ)
    (hsat : ∀ r ∈ others, dotQ (reduceRow a as b r).1 ys = (reduceRow a as b r).2) :
    ∀ r ∈ rows, dotQ r.1 ((b - dotQ as ys) / a :: ys) = r.2 := by
  intro r hr
  rcases hcover r hr with rfl | hro
  · show dotQ (a :: as) _ = b
    rw [dotQ_cons]
    field_simp
  · obtain ⟨rl, d⟩ := r
    cases rl with
    | nil => have := hothers_len _ hro; simp at this
    | cons c cs =>
      have hlen : cs.length = as.length := by
        have := hothers_len _ hro
        simp only [List.length_cons] at this
        omega
      have h := hsat _ hro
      simp only [reduceRow] at h
      exact reduced_row_sat a as b c cs d ys hlen h

/-- Soundness of the elimination: a returned vector has the right length and
satisfies every row of the (square, well-formed) system. -/
theorem linSolveAux_sound (n : Nat) :
    ∀ (rows : List (List ℚ × ℚ)) (xs : List ℚ),
    rows.length = n → (∀ r ∈ rows, r.1.length = n) →
    linSolveAux n rows = some xs →
    xs.length = n ∧ ∀ r ∈ rows, dotQ r.1 xs = r.2 := by
  induction n with
  | zero =>
    intro rows xs hlen hrl h
    have hr0 : rows = [] := List.length_eq_zero.mp hlen
    subst hr0
    simp only [linSolveAux, Option.some.injEq] at h
    subst h
    exact ⟨rfl, by intro r hr; simp at hr⟩
  | succ n ih =>
    intro rows xs hlen hrl h
    cases hfp : findPivot rows with
    | none => simp [linSolveAux, hfp] at h
    | some pr =>
      obtain ⟨⟨a, as, b⟩, others⟩ := pr
      obtain ⟨ha, hpmem, hcover, hsub, hplen⟩ := findPivot_some rows a as b others hfp
      cases hrec : linSolveAux n (others.map (reduceRow a as b)) with
      | none => simp [linSolveAux, hfp, hrec] at h
      | some ys =>
        simp only [linSolveAux, hfp, hrec, Option.some.injEq] at h
        subst h
        have has : as.length = n := by
          have := hrl _ hpmem
          simpa using this
        have hothers_len : ∀ r ∈ others, r.1.length = n + 1 :=
          fun r hr => hrl r (hsub r hr)
        have hredlen : (others.map (reduceRow a as b)).length = n := by
          simp only [List.length_map]
          omega
        obtain ⟨hyslen, hys⟩ :=
          ih _ ys hredlen (reduced_lengths a as b n has others hothers_len) hrec
        refine ⟨by simp [hyslen], ?_⟩
        exact sat_extend a ha as b n has rows others hcover hothers_len ys
          (fun r hr => hys _ (List.mem_map_of_mem _ hr))

/-- Completeness of the elimination: if the square, well-formed system has
exactly one solution, the elimination succeeds.  (Contrapositive: the solver
fails only on singular systems, as `np.linalg.solve` does.) -/
theorem linSolveAux_complete (n : Nat) :
    ∀ (rows : List (List ℚ × ℚ)),
    rows.length = n → (∀ r ∈ rows, r.1.length = n) →
    (∃ xs, xs.length = n ∧ ∀ r ∈ rows, dotQ r.1 xs = r.2) →
    (∀ xs ys, xs.length = n → ys.length = n →
      (∀ r ∈ rows, dotQ r.1 xs = r.2) → (∀ r ∈ rows, dotQ r.1 ys = r.2) → xs = ys) →
    ∃ zs, linSolveAux n rows = some zs := by
  induction n with
  | zero =>
    intro rows _ _ _ _
    exact ⟨[], rfl⟩
  | succ n ih =>
    intro rows hlen hrl hex huniq
    obtain ⟨xs, hxslen, hxssat⟩ := hex
    obtain ⟨x, xs', rfl⟩ : ∃ x xs', xs = x :: xs' := by
      cases xs with
      | nil => simp at hxslen
      | cons x xs' => exact ⟨x, xs', rfl⟩
    have hxs'len : xs'.length = n := by simpa using hxslen
    cases hfp : findPivot rows with
    | none =>
      exfalso
      have hne : ∀ r ∈ rows, r.1 ≠ [] := by
        intro r hr h0
        have := hrl r hr
        rw [h0] at this
        simp at this
      have hheads := findPivot_none_heads rows hfp hne
      have hsat2 : ∀ r ∈ rows, dotQ r.1 ((x + 1) :: xs') = r.2 := by
        intro r hr
        obtain ⟨cs, d, rfl⟩ := hheads r hr
        have hs := hxssat _ hr
        rw [dotQ_cons] at hs ⊢
        linarith [hs]
      have heq := huniq (x :: xs') ((x + 1) :: xs') hxslen (by simpa using hxslen)
        hxssat hsat2
      simp at heq
    | some pr =>
      obtain ⟨⟨a, as, b⟩, others⟩ := pr
      obtain ⟨ha, hpmem, hcover, hsub, hplen⟩ := findPivot_some rows a as b others hfp
      have has : as.length = n := by
        have := hrl _ hpmem
        simpa using this
      have hothers_len : ∀ r ∈ others, r.1.length = n + 1 :=
        fun r hr => hrl r (hsub r hr)
      have hredlen : (others.map (reduceRow a as b)).length = n := by
        simp only [List.length_map]
        omega
      have hpivsat : dotQ (a :: as) (x :: xs') = b := hxssat _ hpmem
      have hex' : ∃ zs, zs.length = n ∧
          ∀ r' ∈ others.map (reduceRow a as b), dotQ r'.1 zs = r'.2 := by
        refine ⟨xs', hxs'len, ?_⟩
        intro r' hr'
        simp only [List.mem_map] at hr'
        obtain ⟨r, hr, rfl⟩ := hr'
        obtain ⟨rl, d⟩ := r
        cases rl with
        | nil => have := hothers_len _ hr; simp at this
        | cons c cs =>
          have hlencs : cs.length = as.length := by
            have := hothers_len _ hr
            simp only [List.length_cons] at this
            omega
          simp only [reduceRow]
          exact row_sat_reduced a ha as b c cs d x xs' hlencs hpivsat
            (hxssat _ (hsub _ hr))
      have huniq' : ∀ us vs, us.length = n → vs.length = n →
          (∀ r' ∈ others.map (reduceRow a as b), dotQ r'.1 us = r'.2) →
          (∀ r' ∈ others.map (reduceRow a as b), dotQ r'.1 vs = r'.2) → us = vs := by
        intro us vs hus hvs hsatu hsatv
        have hu := sat_extend a ha as b n has rows others hcover hothers_len us
          (fun r hr => hsatu _ (List.mem_map_of_mem _ hr))
        have hv := sat_extend a ha as b n has rows others hcover hothers_len vs
          (fun r hr => hsatv _ (List.mem_map_of_mem _ hr))
        have heq := huniq ((b - dotQ as us) / a :: us) ((b - dotQ as vs) / a :: vs)
          (by simp [hus]) (by simp [hvs]) hu hv
        injection heq
      obtain ⟨zs, hzs⟩ := ih _ hredlen
        (reduced_lengths a as b n has others hothers_len) hex' huniq'
      exact ⟨(b - dotQ as zs) / a :: zs, by simp [linSolveAux, hfp, hzs]⟩

/-! ## The perspective system -/

/-- Every row assembled by `compute_matrix` has eight coefficients. -/
theorem perspectiveRows_lengths (src dst : List (ℚ × ℚ)) :
    ∀ r ∈ perspectiveRows src dst, r.1.length = 8 := by
  intro r hr
  simp only [perspectiveRows, List.mem_flatMap] at hr
  obtain ⟨sd, _, hr⟩ := hr
  simp only [List.mem_cons, List.not_mem_nil, or_false] at hr
  rcases hr with rfl | rfl <;> rfl

/-- A rational list of length eight is an explicit eight-element list. -/
theorem list_eq_of_length_eight (xs : List ℚ) (h : xs.length = 8) :
    ∃ x0 x1 x2 x3 x4 x5 x6 x7,
      xs = [x0, x1, x2, x3, x4, x5, x6, x7] := by
  rcases xs with _ | ⟨x0, _ | ⟨x1, _ | ⟨x2, _ | ⟨x3, _ | ⟨x4, _ | ⟨x5, _ | ⟨x6, _ |
    ⟨x7, _ | ⟨x8, t⟩⟩⟩⟩⟩⟩⟩⟩⟩ <;> simp at h
  exact ⟨x0, x1, x2, x3, x4, x5, x6, x7, rfl⟩

/-- One correspondence is mapped homogeneously: `M @ (sx, sy, 1)` is the
destination point scaled by the resulting homogeneous coordinate. -/
def mapsOntoHom (M : Mat3) (s d : ℚ × ℚ) : Prop :=
  (mat3ApplyHom M s.1 s.2).x = d.1 * (mat3ApplyHom M s.1 s.2).z ∧
  (mat3ApplyHom M s.1 s.2).y = d.2 * (mat3ApplyHom M s.1 s.2).z

/-- One correspondence is mapped onto the destination in the division form of
the claim: `w.x / w.z = d.x` and `w.y / w.z = d.y` for `w = M @ (sx, sy, 1)`. -/
def mapsOntoDiv (M : Mat3) (s d : ℚ × ℚ) : Prop :=
  (mat3ApplyHom M s.1 s.2).x / (mat3ApplyHom M s.1 s.2).z = d.1 ∧
  (mat3ApplyHom M s.1 s.2).y / (mat3ApplyHom M s.1 s.2).z = d.2

/-- The homogeneous form gives the division form whenever the homogeneous
coordinate is nonzero. -/
theorem mapsOntoHom_div (M : Mat3) (s d : ℚ × ℚ) (h : mapsOntoHom M s d)
    (hz : (mat3ApplyHom M s.1 s.2).z ≠ 0) : mapsOntoDiv M s d := by
  obtain ⟨hx, hy⟩ := h
  constructor
  · rw [hx]
    exact mul_div_cancel_right₀ d.1 hz
  · rw [hy]
    exact mul_div_cancel_right₀ d.2 hz

/-- C1 (amended): whenever `compute_matrix` succeeds — i.e. the assembled 8×8
system is nonsingular, which is exactly when `np.linalg.solve` returns — the
resulting matrix maps each source point homogeneously onto its destination:
for `w = M @ (sx, sy, 1)` one has `w.x = dx * w.z` and `w.y = dy * w.z`, and
hence `w.x / w.z = dx` and `w.y / w.z = dy` whenever `w.z ≠ 0`.  The guard
`w.z ≠ 0` is necessary: see the counterexample below. -/
theorem compute_matrix_maps_corners (s0 s1 s2 s3 d0 d1 d2 d3 : ℚ × ℚ) (M : Mat3)
    (h : compute_matrix [s0, s1, s2, s3] [d0, d1, d2, d3] = some M) :
    ∀ p ∈ [(s0, d0), (s1, d1), (s2, d2), (s3, d3)],
      mapsOntoHom M p.1 p.2 ∧
        ((mat3ApplyHom M p.1.1 p.1.2).z ≠ 0 → mapsOntoDiv M p.1 p.2) := by
  cases hls : linSolveAux 8 (perspectiveRows [s0, s1, s2, s3] [d0, d1, d2, d3]) with
  | none => simp [compute_matrix, hls] at h
  | some xs =>
    simp only [compute_matrix, hls, Option.some.injEq] at h
    obtain ⟨hxs_len, hsat⟩ := linSolveAux_sound 8
      (perspectiveRows [s0, s1, s2, s3] [d0, d1, d2, d3]) xs rfl
      (perspectiveRows_lengths _ _) hls
    obtain ⟨X0, X1, X2, X3, X4, X5, X6, X7, rfl⟩ := list_eq_of_length_eight xs hxs_len
    have hM : M = ⟨X0, X1, X2, X3, X4, X5, X6, X7, 1⟩ := by rw [← h]; rfl
    subst hM
    have hPR : perspectiveRows [s0, s1, s2, s3] [d0, d1, d2, d3] =
        [([s0.1, s0.2, 1, 0, 0, 0, -d0.1 * s0.1, -d0.1 * s0.2], d0.1),
         ([0, 0, 0, s0.1, s0.2, 1, -d0.2 * s0.1, -d0.2 * s0.2], d0.2),
         ([s1.1, s1.2, 1, 0, 0, 0, -d1.1 * s1.1, -d1.1 * s1.2], d1.1),
         ([0, 0, 0, s1.1, s1.2, 1, -d1.2 * s1.1, -d1.2 * s1.2], d1.2),
         ([s2.1, s2.2, 1, 0, 0, 0, -d2.1 * s2.1, -d2.1 * s2.2], d2.1),
         ([0, 0, 0, s2.1, s2.2, 1, -d2.2 * s2.1, -d2.2 * s2.2], d2.2),
         ([s3.1, s3.2, 1, 0, 0, 0, -d3.1 * s3.1, -d3.1 * s3.2], d3.1),
         ([0, 0, 0, s3.1, s3.2, 1, -d3.2 * s3.1, -d3.2 * s3.2], d3.2)] := rfl
    rw [hPR] at hsat
    have e0u := hsat ([s0.1, s0.2, 1, 0, 0, 0, -d0.1 * s0.1, -d0.1 * s0.2], d0.1) (by simp)
    have e0v := hsat ([0, 0, 0, s0.1, s0.2, 1, -d0.2 * s0.1, -d0.2 * s0.2], d0.2) (by simp)
    have e1u := hsat ([s1.1, s1.2, 1, 0, 0, 0, -d1.1 * s1.1, -d1.1 * s1.2], d1.1) (by simp)
    have e1v := hsat ([0, 0, 0, s1.1, s1.2, 1, -d1.2 * s1.1, -d1.2 * s1.2], d1.2) (by simp)
    have e2u := hsat ([s2.1, s2.2, 1, 0, 0, 0, -d2.1 * s2.1, -d2.1 * s2.2], d2.1) (by simp)
    have e2v := hsat ([0, 0, 0, s2.1, s2.2, 1, -d2.2 * s2.1, -d2.2 * s2.2], d2.2) (by simp)
    have e3u := hsat ([s3.1, s3.2, 1, 0, 0, 0, -d3.1 * s3.1, -d3.1 * s3.2], d3.1) (by simp)
    have e3v := hsat ([0, 0, 0, s3.1, s3.2, 1, -d3.2 * s3.1, -d3.2 * s3.2], d3.2) (by simp)
    simp only [dotQ_cons, dotQ] at e0u e0v e1u e1v e2u e2v e3u e3v
    intro p hp
    simp only [List.mem_cons, List.not_mem_nil, or_false] at hp
    rcases hp with rfl | rfl | rfl | rfl
    · have hom : mapsOntoHom ⟨X0, X1, X2, X3, X4, X5, X6, X7, 1⟩ s0 d0 := by
        refine ⟨?_, ?_⟩ <;> simp only [mapsOntoHom, mat3ApplyHom, mat3MulVec]
        · linear_combination e0u
        · linear_combination e0v
      exact ⟨hom, mapsOntoHom_div _ _ _ hom⟩
    · have hom : mapsOntoHom ⟨X0, X1, X2, X3, X4, X5, X6, X7, 1⟩ s1 d1 := by
        refine ⟨?_, ?_⟩ <;> simp only [mapsOntoHom, mat3ApplyHom, mat3MulVec]
        · linear_combination e1u
        · linear_combination e1v
      exact ⟨hom, mapsOntoHom_div _ _ _ hom⟩
    · have hom : mapsOntoHom ⟨X0, X1, X2, X3, X4, X5, X6, X7, 1⟩ s2 d2 := by
        refine ⟨?_, ?_⟩ <;> simp only [mapsOntoHom, mat3ApplyHom, mat3MulVec]
        · linear_combination e2u
        · linear_combination e2v
      exact ⟨hom, mapsOntoHom_div _ _ _ hom⟩
    · have hom : mapsOntoHom ⟨X0, X1, X2, X3, X4, X5, X6, X7, 1⟩ s3 d3 := by
        refine ⟨?_, ?_⟩ <;> simp only [mapsOntoHom, mat3ApplyHom, mat3MulVec]
        · linear_combination e3u
        · linear_combination e3v
      exact ⟨hom, mapsOntoHom_div _ _ _ hom⟩

/-- Witness for `compute_matrix_maps_corners`: the unit square mapped to
itself.  The solver succeeds with the identity matrix, and e.g. the third
corner is mapped onto itself, homogeneously and in division form. -/
theorem compute_matrix_maps_corners_witness :
    compute_matrix [(0, 0), (1, 0), (1, 1), (0, 1)] [(0, 0), (1, 0), (1, 1), (0, 1)]
        = some ⟨1, 0, 0, 0, 1, 0, 0, 0, 1⟩ ∧
      mapsOntoHom ⟨1, 0, 0, 0, 1, 0, 0, 0, 1⟩ (1, 1) (1, 1) ∧
      ((mat3ApplyHom ⟨1, 0, 0, 0, 1, 0, 0, 0, 1⟩ 1 1).z ≠ 0 →
        mapsOntoDiv ⟨1, 0, 0, 0, 1, 0, 0, 0, 1⟩ (1, 1) (1, 1)) := by
  have hcm : compute_matrix [(0, 0), (1, 0), (1, 1), (0, 1)]
      [(0, 0), (1, 0), (1, 1), (0, 1)] = some ⟨1, 0, 0, 0, 1, 0, 0, 0, 1⟩ := by
    norm_num [compute_matrix, perspectiveRows, linSolveAux, findPivot, reduceRow, dotQ]
  have happ := compute_matrix_maps_corners (0, 0) (1, 0) (1, 1) (0, 1)
    (0, 0) (1, 0) (1, 1) (0, 1) ⟨1, 0, 0, 0, 1, 0, 0, 0, 1⟩ hcm
    ((1, 1), (1, 1)) (by simp)
  exact ⟨hcm, happ.1, happ.2⟩

/-- C1 counterexample to the original division form of the claim: a
nonsingular instance — `compute_matrix` succeeds, so the 8×8 system has a
unique solution — in which the first source point `(1, 1)` is mapped to the
zero vector, so `w.x / w.z = dst.x` fails: `w.z = 0` and (with the `0 / 0 = 0`
convention; in Python the division would raise) `w.x / w.z = 0 ≠ 5`. -/
theorem compute_matrix_div_claim_cex :
    compute_matrix [(1, 1), (0, 0), (1, 0), (0, 1)]
        [(5, 7), (-2, 0), (-1/2, 1/2), (1, 1)]
      = some ⟨1, 1, -2, 1, -1, 0, 1, -2, 1⟩ ∧
    mat3ApplyHom ⟨1, 1, -2, 1, -1, 0, 1, -2, 1⟩ 1 1 = ⟨0, 0, 0⟩ ∧
    ¬ mapsOntoDiv ⟨1, 1, -2, 1, -1, 0, 1, -2, 1⟩ (1, 1) (5, 7) := by
  refine ⟨?_, by norm_num [mat3ApplyHom, mat3MulVec], ?_⟩
  · norm_num [compute_matrix, perspectiveRows, linSolveAux, findPivot, reduceRow, dotQ]
  · simp only [mapsOntoDiv, mat3ApplyHom, mat3MulVec]
    norm_num

/-! ## The unmoved-handles (identity) instance -/

/-- The bounding-box quad built by `invoke` from the extremes
`min_x, max_x, min_y, max_y`, in source order. -/
def bboxQuad (a b c d : ℚ) : List GPPoint :=
  [(a, c), (b, c), (b, d), (a, d)]

/-- A product of two nonzero factors with a third is zero only if the third
factor is zero. -/
theorem factor_zero (u v w : ℚ) (hu : u ≠ 0) (hv : v ≠ 0)
    (h : u * (v * w) = 0) : w = 0 := by
  rcases mul_eq_zero.mp h with h' | h'
  · exact absurd h' hu
  · rcases mul_eq_zero.mp h' with h'' | h''
    · exact absurd h'' hv
    · exact h''

/-- The identity vector solves the perspective system of a quad mapped to
itself. -/
theorem identity_system_sat (a b c d : ℚ) :
    ∀ r ∈ perspectiveRows (bboxQuad a b c d) (bboxQuad a b c d),
      dotQ r.1 [1, 0, 0, 0, 1, 0, 0, 0] = r.2 := by
  intro r hr
  have hPR : perspectiveRows (bboxQuad a b c d) (bboxQuad a b c d) =
      [([a, c, 1, 0, 0, 0, -a * a, -a * c], a),
       ([0, 0, 0, a, c, 1, -c * a, -c * c], c),
       ([b, c, 1, 0, 0, 0, -b * b, -b * c], b),
       ([0, 0, 0, b, c, 1, -c * b, -c * c], c),
       ([b, d, 1, 0, 0, 0, -b * b, -b * d], b),
       ([0, 0, 0, b, d, 1, -d * b, -d * d], d),
       ([a, d, 1, 0, 0, 0, -a * a, -a * d], a),
       ([0, 0, 0, a, d, 1, -d * a, -d * d], d)] := rfl
  rw [hPR] at hr
  simp only [List.mem_cons, List.not_mem_nil, or_false] at hr
  rcases hr with rfl | rfl | rfl | rfl | rfl | rfl | rfl | rfl <;>
    (simp only [dotQ_cons, dotQ_nil_right]; ring)

/-- For a nondegenerate bounding box mapped to itself, the identity vector is
the only solution of the perspective system: the 8×8 system is nonsingular
and is solved exactly by the identity perspective matrix. -/
theorem identity_system_unique (a b c d : ℚ) (hab : a ≠ b) (hcd : c ≠ d)
    (xs : List ℚ) (hlen : xs.length = 8)
    (hsat : ∀ r ∈ perspectiveRows (bboxQuad a b c d) (bboxQuad a b c d),
      dotQ r.1 xs = r.2) :
    xs = [1, 0, 0, 0, 1, 0, 0, 0] := by
  obtain ⟨X0, X1, X2, X3, X4, X5, X6, X7, rfl⟩ := list_eq_of_length_eight xs hlen
  have hab' : a - b ≠ 0 := sub_ne_zero.mpr hab
  have hcd' : c - d ≠ 0 := sub_ne_zero.mpr hcd
  have hdc' : d - c ≠ 0 := sub_ne_zero.mpr hcd.symm
  have hPR : perspectiveRows (bboxQuad a b c d) (bboxQuad a b c d) =
      [([a, c, 1, 0, 0, 0, -a * a, -a * c], a),
       ([0, 0, 0, a, c, 1, -c * a, -c * c], c),
       ([b, c, 1, 0, 0, 0, -b * b, -b * c], b),
       ([0, 0, 0, b, c, 1, -c * b, -c * c], c),
       ([b, d, 1, 0, 0, 0, -b * b, -b * d], b),
       ([0, 0, 0, b, d, 1, -d * b, -d * d], d),
       ([a, d, 1, 0, 0, 0, -a * a, -a * d], a),
       ([0, 0, 0, a, d, 1, -d * a, -d * d], d)] := rfl
  rw [hPR] at hsat
  have e1 := hsat ([a, c, 1, 0, 0, 0, -a * a, -a * c], a) (by simp)
  have e2 := hsat ([0, 0, 0, a, c, 1, -c * a, -c * c], c) (by simp)
  have e3 := hsat ([b, c, 1, 0, 0, 0, -b * b, -b * c], b) (by simp)
  have e4 := hsat ([0, 0, 0, b, c, 1, -c * b, -c * c], c) (by simp)
  have e5 := hsat ([b, d, 1, 0, 0, 0, -b * b, -b * d], b) (by simp)
  have e6 := hsat ([0, 0, 0, b, d, 1, -d * b, -d * d], d) (by simp)
  have e7 := hsat ([a, d, 1, 0, 0, 0, -a * a, -a * d], a) (by simp)
  have e8 := hsat ([0, 0, 0, a, d, 1, -d * a, -d * d], d) (by simp)
  simp only [dotQ_cons, dotQ_nil_right] at e1 e2 e3 e4 e5 e6 e7 e8
  have hX7 : X7 = 0 :=
    factor_zero _ _ _ hab' hdc' (by linear_combination e1 - e3 - e7 + e5)
  have hX6 : X6 = 0 :=
    factor_zero _ _ _ hab' hdc' (by linear_combination e2 - e4 - e8 + e6)
  have hX3 : X3 = 0 := by
    have h3 : (a - b) * X3 = 0 := by
      linear_combination e2 - e4 + (c * (a - b)) * hX6
    rcases mul_eq_zero.mp h3 with h' | h'
    · exact absurd h' hab'
    · exact h'
  have hX0 : X0 = 1 := by
    have h0 : (a - b) * (X0 - 1) = 0 := by
      linear_combination e1 - e3 + (a ^ 2 - b ^ 2) * hX6 + (c * (a - b)) * hX7
    rcases mul_eq_zero.mp h0 with h' | h'
    · exact absurd h' hab'
    · exact sub_eq_zero.mp h'
  have hX1 : X1 = 0 := by
    have h1 : (c - d) * X1 = 0 := by
      linear_combination e1 - e7 - (a * (d - c)) * hX7
    rcases mul_eq_zero.mp h1 with h' | h'
    · exact absurd h' hcd'
    · exact h'
  have hX2 : X2 = 0 := by
    linear_combination e1 - a * hX0 - c * hX1 + a ^ 2 * hX6 + (a * c) * hX7
  have hX4 : X4 = 1 := by
    have h4 : (c - d) * (X4 - 1) = 0 := by
      linear_combination e2 - e8 + (a * (c - d)) * hX6 + (c ^ 2 - d ^ 2) * hX7
    rcases mul_eq_zero.mp h4 with h' | h'
    · exact absurd h' hcd'
    · exact sub_eq_zero.mp h'
  have hX5 : X5 = 0 := by
    linear_combination e2 - a * hX3 - c * hX4 + (c * a) * hX6 + c ^ 2 * hX7
  rw [hX0, hX1, hX2, hX3, hX4, hX5, hX6, hX7]

/-- C8: when the destination quad equals the source bounding-box quad (no
handle was moved) and the box is nondegenerate (`min_x < max_x`,
`min_y < max_y`), the solved matrix is the identity perspective matrix and
`finish` leaves every stroke point unchanged (and removes the handles). -/
theorem perspective_warp_identity (a b c d : ℚ) (hab : a < b) (hcd : c < d)
    (pts : GPStroke) (rest : List GPStroke) :
    compute_matrix (bboxQuad a b c d) (bboxQuad a b c d)
        = some ⟨1, 0, 0, 0, 1, 0, 0, 0, 1⟩ ∧
    perspective_warp_finish
        ⟨bboxQuad a b c d, (bboxQuad a b c d).map (fun co => (co.1, co.2, 0)),
         true, pts :: rest⟩
      = some (.FINISHED, ⟨bboxQuad a b c d, [], true, pts :: rest⟩) := by
  have huniqf : ∀ xs ys, xs.length = 8 → ys.length = 8 →
      (∀ r ∈ perspectiveRows (bboxQuad a b c d) (bboxQuad a b c d),
        dotQ r.1 xs = r.2) →
      (∀ r ∈ perspectiveRows (bboxQuad a b c d) (bboxQuad a b c d),
        dotQ r.1 ys = r.2) → xs = ys := by
    intro xs ys hx hy hsx hsy
    rw [identity_system_unique a b c d hab.ne hcd.ne xs hx hsx,
      identity_system_unique a b c d hab.ne hcd.ne ys hy hsy]
  have hrows_len : (perspectiveRows (bboxQuad a b c d) (bboxQuad a b c d)).length = 8 := by
    simp [perspectiveRows, bboxQuad]
  obtain ⟨zs, hzs⟩ := linSolveAux_complete 8
    (perspectiveRows (bboxQuad a b c d) (bboxQuad a b c d)) hrows_len
    (perspectiveRows_lengths _ _)
    ⟨[1, 0, 0, 0, 1, 0, 0, 0], by simp, identity_system_sat a b c d⟩ huniqf
  obtain ⟨hzlen, hzsat⟩ := linSolveAux_sound 8
    (perspectiveRows (bboxQuad a b c d) (bboxQuad a b c d)) zs hrows_len
    (perspectiveRows_lengths _ _) hzs
  have hzeq : zs = [1, 0, 0, 0, 1, 0, 0, 0] :=
    identity_system_unique a b c d hab.ne hcd.ne zs hzlen hzsat
  subst hzeq
  have hcm : compute_matrix (bboxQuad a b c d) (bboxQuad a b c d)
      = some ⟨1, 0, 0, 0, 1, 0, 0, 0, 1⟩ := by
    simp only [compute_matrix, hzs]
    rfl
  refine ⟨hcm, ?_⟩
  have hdst : ((bboxQuad a b c d).map (fun co => (co.1, co.2, (0 : ℚ)))).map
      (fun h => (h.1, h.2.1)) = bboxQuad a b c d := by
    simp [bboxQuad]
  have hcm' : compute_matrix (bboxQuad a b c d)
      (((bboxQuad a b c d).map (fun co => (co.1, co.2, (0 : ℚ)))).map
        (fun h => (h.1, h.2.1))) = some ⟨1, 0, 0, 0, 1, 0, 0, 0, 1⟩ := by
    rw [hdst]
    exact hcm
  have hpts : pts.map (fun p =>
      ((mat3ApplyHom ⟨1, 0, 0, 0, 1, 0, 0, 0, 1⟩ p.1 p.2).x /
        (mat3ApplyHom ⟨1, 0, 0, 0, 1, 0, 0, 0, 1⟩ p.1 p.2).z,
       (mat3ApplyHom ⟨1, 0, 0, 0, 1, 0, 0, 0, 1⟩ p.1 p.2).y /
        (mat3ApplyHom ⟨1, 0, 0, 0, 1, 0, 0, 0, 1⟩ p.1 p.2).z)) = pts := by
    induction pts with
    | nil => rfl
    | cons p ps ih => simp [mat3ApplyHom, mat3MulVec, ih]
  simp only [perspective_warp_finish, if_true]
  rw [hcm']
  show some (OpStatus.FINISHED,
      PWState.mk (bboxQuad a b c d) [] true
        ((pts.map (fun p =>
          ((mat3ApplyHom ⟨1, 0, 0, 0, 1, 0, 0, 0, 1⟩ p.1 p.2).x /
            (mat3ApplyHom ⟨1, 0, 0, 0, 1, 0, 0, 0, 1⟩ p.1 p.2).z,
           (mat3ApplyHom ⟨1, 0, 0, 0, 1, 0, 0, 0, 1⟩ p.1 p.2).y /
            (mat3ApplyHom ⟨1, 0, 0, 0, 1, 0, 0, 0, 1⟩ p.1 p.2).z))) :: rest))
    = some (OpStatus.FINISHED, PWState.mk (bboxQuad a b c d) [] true (pts :: rest))
  rw [hpts]

/-- Witness for `perspective_warp_identity`: the unit box with a two-point
stroke; the solve yields the identity and `finish` returns the state with the
stroke unchanged and the handles removed. -/
theorem perspective_warp_identity_witness :
    (0 : ℚ) < 1 ∧ (0 : ℚ) < 1 ∧
    (compute_matrix (bboxQuad 0 1 0 1) (bboxQuad 0 1 0 1)
        = some ⟨1, 0, 0, 0, 1, 0, 0, 0, 1⟩ ∧
      perspective_warp_finish
          ⟨bboxQuad 0 1 0 1, (bboxQuad 0 1 0 1).map (fun co => (co.1, co.2, 0)),
           true, [(0, 0), (1/2, 1/3)] :: []⟩
        = some (.FINISHED, ⟨bboxQuad 0 1 0 1, [], true, [(0, 0), (1/2, 1/3)] :: []⟩)) :=
  ⟨by norm_num, by norm_num,
    perspective_warp_identity 0 1 0 1 (by norm_num) (by norm_num)
      [(0, 0), (1/2, 1/3)] []⟩

/-! ## Claims about the drawing template -/

/-- C2: a `LEFTMOUSE`-press step (starting a new stroke) always leaves
`redo_stack` empty, and these are the only steps that can empty a non-empty
`redo_stack`, apart from a `Y`-redo popping its last element (a `Z`-undo only
pushes onto `redo_stack` and can never empty it).  This holds in every state,
hence in every reachable state. -/
theorem modal_draw_redo_clear (s : DrawState) (e : Event) :
    (e.type = .LEFTMOUSE → e.value = .PRESS →
      ((modal_draw_modal s e).2).redo_stack = []) ∧
    (s.redo_stack ≠ [] → ((modal_draw_modal s e).2).redo_stack = [] →
      (e.type = .LEFTMOUSE ∧ e.value = .PRESS) ∨
      (e.type = .Y ∧ e.value = .PRESS ∧ s.redo_stack.length = 1)) := by
  obtain ⟨t, v, mx, my⟩ := e
  constructor
  · intro ht hv
    subst ht
    subst hv
    simp [modal_draw_modal]
  · intro hne hempty
    cases t <;> cases v <;>
      simp only [modal_draw_modal] at hempty <;>
      simp_all
    · -- Z press: redo_stack only grows
      rcases hgl : s.strokes.getLast? with _ | t0 <;>
        rw [hgl] at hempty <;> simp_all
    · -- Y press: popping empties only a singleton
      rcases hgl : s.redo_stack.getLast? with _ | t0 <;>
        rw [hgl] at hempty <;> simp_all
      have h1 : s.redo_stack.dropLast.length = 0 := by
        rw [hempty]
        rfl
      rw [List.length_dropLast] at h1
      have h2 : 0 < s.redo_stack.length := List.length_pos.mpr hne
      omega

/-- Witness for `modal_draw_redo_clear`: pressing `LEFTMOUSE` in a state with
one redo entry empties `redo_stack`, and the step is of the allowed kind. -/
theorem modal_draw_redo_clear_witness :
    ((modal_draw_modal ⟨[[]], [], [0], 0, true⟩ ⟨.LEFTMOUSE, .PRESS, 0, 0⟩).2).redo_stack = [] ∧
    ((Event.mk .LEFTMOUSE .PRESS 0 0).type = .LEFTMOUSE ∧
        (Event.mk .LEFTMOUSE .PRESS 0 0).value = .PRESS ∨
      (Event.mk .LEFTMOUSE .PRESS 0 0).type = .Y ∧
        (Event.mk .LEFTMOUSE .PRESS 0 0).value = .PRESS ∧
        (DrawState.mk [[]] [] [0] 0 true).redo_stack.length = 1) := by
  have h := modal_draw_redo_clear ⟨[[]], [], [0], 0, true⟩ ⟨.LEFTMOUSE, .PRESS, 0, 0⟩
  exact ⟨h.1 rfl rfl, h.2 (by decide) (h.1 rfl rfl)⟩

/-- C3: `StrokeUndo.execute` followed by `StrokeRedo.execute` is the identity
on any state with non-empty `strokes`, and symmetrically redo-then-undo is
the identity on any state with non-empty `redo_stack`. -/
theorem stroke_undo_redo_inverse (s : DrawState) :
    (s.strokes ≠ [] → (stroke_redo_execute (stroke_undo_execute s).2).2 = s) ∧
    (s.redo_stack ≠ [] → (stroke_undo_execute (stroke_redo_execute s).2).2 = s) := by
  constructor
  · intro h
    rcases List.eq_nil_or_concat s.strokes with h0 | ⟨L, t, hL⟩
    · exact absurd h0 h
    · rw [List.concat_eq_append] at hL
      have h1 : stroke_undo_execute s =
          (.FINISHED, { s with strokes := L, redo_stack := s.redo_stack ++ [t] }) := by
        simp [stroke_undo_execute, hL, List.getLast?_concat, List.dropLast_concat]
      have h2 : stroke_redo_execute
          { s with strokes := L, redo_stack := s.redo_stack ++ [t] } =
          (.FINISHED, { s with strokes := L ++ [t], redo_stack := s.redo_stack }) := by
        simp [stroke_redo_execute, List.getLast?_concat, List.dropLast_concat]
      rw [h1, h2, ← hL]
  · intro h
    rcases List.eq_nil_or_concat s.redo_stack with h0 | ⟨L, t, hL⟩
    · exact absurd h0 h
    · rw [List.concat_eq_append] at hL
      have h1 : stroke_redo_execute s =
          (.FINISHED, { s with redo_stack := L, strokes := s.strokes ++ [t] }) := by
        simp [stroke_redo_execute, hL, List.getLast?_concat, List.dropLast_concat]
      have h2 : stroke_undo_execute
          { s with redo_stack := L, strokes := s.strokes ++ [t] } =
          (.FINISHED, { s with redo_stack := L ++ [t], strokes := s.strokes }) := by
        simp [stroke_undo_execute, List.getLast?_concat, List.dropLast_concat]
      rw [h1, h2, ← hL]

/-- Witness for `stroke_undo_redo_inverse`: one stored stroke undone and
redone, and one redo entry redone and undone. -/
theorem stroke_undo_redo_inverse_witness :
    (stroke_redo_execute (stroke_undo_execute ⟨[[]], [0], [], 0, true⟩).2).2
        = ⟨[[]], [0], [], 0, true⟩ ∧
    (stroke_undo_execute (stroke_redo_execute ⟨[[]], [], [0], 0, true⟩).2).2
        = ⟨[[]], [], [0], 0, true⟩ :=
  ⟨(stroke_undo_redo_inverse ⟨[[]], [0], [], 0, true⟩).1 (by decide),
   (stroke_undo_redo_inverse ⟨[[]], [], [0], 0, true⟩).2 (by decide)⟩

/-- C9: the undo and redo operators always return `FINISHED`, and on an empty
source list they leave the whole state unchanged. -/
theorem stroke_undo_redo_total (s : DrawState) :
    (stroke_undo_execute s).1 = .FINISHED ∧
    (stroke_redo_execute s).1 = .FINISHED ∧
    (s.strokes = [] → (stroke_undo_execute s).2 = s) ∧
    (s.redo_stack = [] → (stroke_redo_execute s).2 = s) := by
  refine ⟨?_, ?_, ?_, ?_⟩
  · rcases hgl : s.strokes.getLast? with _ | t <;> simp [stroke_undo_execute, hgl]
  · rcases hgl : s.redo_stack.getLast? with _ | t <;> simp [stroke_redo_execute, hgl]
  · intro h
    simp [stroke_undo_execute, h]
  · intro h
    simp [stroke_redo_execute, h]

/-- Witness for `stroke_undo_redo_total` at the freshly registered module
state (both lists empty). -/
theorem stroke_undo_redo_total_witness :
    (stroke_undo_execute drawInit).1 = .FINISHED ∧
    (stroke_redo_execute drawInit).1 = .FINISHED ∧
    (stroke_undo_execute drawInit).2 = drawInit ∧
    (stroke_redo_execute drawInit).2 = drawInit := by
  have h := stroke_undo_redo_total drawInit
  exact ⟨h.1, h.2.1, h.2.2.1 rfl, h.2.2.2 rfl⟩

/-- C10 (amended): a `MOUSEMOVE` step appends exactly the event's
region-relative mouse coordinates to the current stroke object and changes
nothing else: the reference lists `strokes` and `redo_stack` are untouched
and every stroke object other than the current one keeps its contents.  The
original claim's stronger "leaves every entry of redo_stack unchanged" fails
when the current stroke itself sits in `redo_stack` after a mid-stroke
`Z`-undo: see the counterexample. -/
theorem modal_draw_mousemove (s : DrawState) (e : Event)
    (he : e.type = .MOUSEMOVE) (hcur : s.current_stroke < s.store.length) :
    (modal_draw_modal s e).1 = .RUNNING_MODAL ∧
    ((modal_draw_modal s e).2).strokes = s.strokes ∧
    ((modal_draw_modal s e).2).redo_stack = s.redo_stack ∧
    ((modal_draw_modal s e).2).store.getD s.current_stroke []
      = s.store.getD s.current_stroke [] ++ [(e.mouse_region_x, e.mouse_region_y)] ∧
    ∀ r, r ≠ s.current_stroke →
      ((modal_draw_modal s e).2).store.getD r [] = s.store.getD r [] := by
  obtain ⟨t, v, mx, my⟩ := e
  simp only [Event.type] at he
  subst he
  have hstep : modal_draw_modal s ⟨.MOUSEMOVE, v, mx, my⟩ =
      (.RUNNING_MODAL,
       { s with store := (s.store.set s.current_stroke
            (s.store.getD s.current_stroke [] ++ [(mx, my)])) }) := by
    simp [modal_draw_modal]
  rw [hstep]
  refine ⟨rfl, rfl, rfl, ?_, ?_⟩
  · rw [List.getD_eq_getElem?_getD, List.getD_eq_getElem?_getD,
      List.getElem?_set_eq_of_lt _ hcur]
    simp [List.getD_eq_getElem?_getD]
  · intro r hr
    rw [List.getD_eq_getElem?_getD, List.getElem?_set_ne (fun hh => hr hh.symm),
      ← List.getD_eq_getElem?_getD]

/-- Witness for `modal_draw_mousemove`: a `MOUSEMOVE` at the initial module
state appends `(5, 7)` to the (empty) current stroke and keeps the status. -/
theorem modal_draw_mousemove_witness :
    (modal_draw_modal drawInit ⟨.MOUSEMOVE, .NOTHING, 5, 7⟩).1 = .RUNNING_MODAL ∧
    ((modal_draw_modal drawInit ⟨.MOUSEMOVE, .NOTHING, 5, 7⟩).2).store.getD 0 []
      = drawInit.store.getD 0 [] ++ [((5 : ℤ), (7 : ℤ))] := by
  have h := modal_draw_mousemove drawInit ⟨.MOUSEMOVE, .NOTHING, 5, 7⟩ rfl (by decide)
  exact ⟨h.1, h.2.2.2.1⟩

/-- C10 counterexample to the original claim: start a stroke (`LEFTMOUSE`
press), undo it mid-stroke (`Z` press) — the current stroke object is now the
single entry of `redo_stack` — then process a `MOUSEMOVE`.  The move appends
to the current stroke, thereby mutating the `redo_stack` entry's contents
from `[]` to `[(5, 7)]`, so the step does not leave every entry of
`redo_stack` unchanged. -/
theorem modal_draw_mousemove_cex :
    (modal_draw_modal (modal_draw_modal drawInit ⟨.LEFTMOUSE, .PRESS, 0, 0⟩).2
        ⟨.Z, .PRESS, 0, 0⟩).2
      = ⟨[[], []], [], [1], 1, true⟩ ∧
    (modal_draw_modal (⟨[[], []], [], [1], 1, true⟩ : DrawState)
        ⟨.MOUSEMOVE, .NOTHING, 5, 7⟩).2
      = ⟨[[], [(5, 7)]], [], [1], 1, true⟩ ∧
    ((modal_draw_modal (⟨[[], []], [], [1], 1, true⟩ : DrawState)
        ⟨.MOUSEMOVE, .NOTHING, 5, 7⟩).2).redo_stack = [1] ∧
    ¬ ((modal_draw_modal (⟨[[], []], [], [1], 1, true⟩ : DrawState)
        ⟨.MOUSEMOVE, .NOTHING, 5, 7⟩).2).store.getD 1 []
      = (⟨[[], []], [], [1], 1, true⟩ : DrawState).store.getD 1 [] := by
  refine ⟨?_, ?_, ?_, ?_⟩ <;> decide

/-! ## Cancel keys and `finish` -/

/-- C6 (amended): the drawing operator's modal handler responds to
`ESC`/`RIGHTMOUSE` by removing the draw handler and returning `CANCELLED`;
the perspective-warp modal handler responds to `ESC` by finishing — it no
longer returns `PASS_THROUGH`, ending the modal loop — but its status code is
`FINISHED`, not the cancellation status code `CANCELLED` (see the
counterexample to the original claim). -/
theorem modal_cancel_key (s : DrawState) (e : Event) (st : PWState) (e2 : Event)
    (he : e.type = .ESC ∨ e.type = .RIGHTMOUSE) (he2 : e2.type = .ESC) :
    modal_draw_modal s e = (.CANCELLED, { s with handle_installed := false }) ∧
    perspective_warp_modal st e2
      = some (.FINISHED, { st with confirm := false, handles := [] }) ∧
    (perspective_warp_modal st e2).map Prod.fst ≠ some .PASS_THROUGH := by
  have h2 : perspective_warp_modal st e2
      = some (.FINISHED, { st with confirm := false, handles := [] }) := by
    have hne1 : ¬(e2.type = .RET ∨ e2.type = .NUMPAD_ENTER) := by
      rw [he2]
      simp
    simp [perspective_warp_modal, hne1, he2, perspective_warp_finish]
  refine ⟨?_, h2, ?_⟩
  · have hor : e.type = .RIGHTMOUSE ∨ e.type = .ESC := he.symm
    simp [modal_draw_modal, hor]
  · rw [h2]
    simp

/-- Witness for `modal_cancel_key`: concrete `ESC` events on both operators. -/
theorem modal_cancel_key_witness :
    modal_draw_modal drawInit ⟨.ESC, .NOTHING, 0, 0⟩
      = (.CANCELLED, { drawInit with handle_installed := false }) ∧
    perspective_warp_modal ⟨[], [], false, []⟩ ⟨.ESC, .NOTHING, 0, 0⟩
      = some (.FINISHED, ⟨[], [], false, []⟩) ∧
    (perspective_warp_modal ⟨[], [], false, []⟩ ⟨.ESC, .NOTHING, 0, 0⟩).map Prod.fst
      ≠ some .PASS_THROUGH := by
  have h := modal_cancel_key drawInit ⟨.ESC, .NOTHING, 0, 0⟩
    ⟨[], [], false, []⟩ ⟨.ESC, .NOTHING, 0, 0⟩ (Or.inl rfl) rfl
  exact h

/-- C6 counterexample to the original claim: on `ESC` the perspective-warp
modal handler returns `FINISHED` — not a cancellation status code. -/
theorem modal_cancel_key_cex :
    (perspective_warp_modal ⟨[], [], false, []⟩ ⟨.ESC, .NOTHING, 0, 0⟩).map Prod.fst
        = some .FINISHED ∧
    (perspective_warp_modal ⟨[], [], false, []⟩ ⟨.ESC, .NOTHING, 0, 0⟩).map Prod.fst
        ≠ some .CANCELLED := by
  constructor <;> decide

/-- C7: an `ESC` step finishes without warping — the stroke list (hence every
point's coordinates) is exactly preserved and the handles are removed — and
`finish` removes the handles on every path on which it completes, confirmed
or cancelled. -/
theorem perspective_warp_esc_preserves (st : PWState) (e : Event)
    (he : e.type = .ESC) :
    perspective_warp_modal st e
      = some (.FINISHED, { st with confirm := false, handles := [] }) ∧
    (perspective_warp_modal st e).map (fun r => r.2.strokes) = some st.strokes ∧
    (∀ st' res, perspective_warp_finish st' = some res → res.2.handles = []) := by
  have hne1 : ¬(e.type = .RET ∨ e.type = .NUMPAD_ENTER) := by
    rw [he]
    simp
  have h1 : perspective_warp_modal st e
      = some (.FINISHED, { st with confirm := false, handles := [] }) := by
    simp [perspective_warp_modal, hne1, he, perspective_warp_finish]
  refine ⟨h1, by rw [h1]; rfl, ?_⟩
  intro st' res h
  by_cases hc : st'.confirm
  · rcases hst : st'.strokes with _ | ⟨stroke, rest⟩
    · simp [perspective_warp_finish, hc, hst] at h
    · rcases hcm : compute_matrix st'.src_bbox
          (st'.handles.map (fun hh => (hh.1, hh.2.1))) with _ | mat
      · simp [perspective_warp_finish, hc, hst, hcm] at h
      · simp only [perspective_warp_finish, hc, if_true, hst, hcm,
          Option.some.injEq] at h
        rw [← h]
  · have hc' : st'.confirm = false := by simpa using hc
    simp only [perspective_warp_finish, hc', Bool.false_eq_true, if_false,
      Option.some.injEq] at h
    rw [← h]

/-- Witness for `perspective_warp_esc_preserves`: a concrete state with one
stroke and one handle; `ESC` preserves the stroke and clears the handles, and
a concrete completing `finish` has no handles left. -/
theorem perspective_warp_esc_preserves_witness :
    perspective_warp_modal ⟨[(0, 0)], [(0, 0, 0)], true, [[(1, 2)]]⟩
        ⟨.ESC, .NOTHING, 0, 0⟩
      = some (.FINISHED, ⟨[(0, 0)], [], false, [[(1, 2)]]⟩) ∧
    (perspective_warp_modal ⟨[(0, 0)], [(0, 0, 0)], true, [[(1, 2)]]⟩
        ⟨.ESC, .NOTHING, 0, 0⟩).map (fun r => r.2.strokes) = some [[(1, 2)]] ∧
    ((OpStatus.FINISHED, (⟨[], [], false, []⟩ : PWState))).2.handles = [] := by
  have h := perspective_warp_esc_preserves ⟨[(0, 0)], [(0, 0, 0)], true, [[(1, 2)]]⟩
    ⟨.ESC, .NOTHING, 0, 0⟩ rfl
  exact ⟨h.1, h.2.1, h.2.2 ⟨[], [], false, []⟩ (.FINISHED, ⟨[], [], false, []⟩) rfl⟩

/-! ## `invoke` preconditions and the mask operator -/

/-- C4 (amended): `invoke` cancels with report "No stroke available" exactly
when the active frame is absent or has no stroke, cancels with report
"Only one stroke allowed per layer" exactly when the frame has more than one
stroke, and enters the modal loop (`RUNNING_MODAL`) for every frame with
exactly one stroke that has at least one point.  For exactly one stroke with
no points the Python code raises `ValueError` from `min()` over an empty
sequence instead of returning `RUNNING_MODAL`: see the counterexample. -/
theorem perspective_warp_invoke_preconditions (frame : Option GPFrame) :
    (perspective_warp_invoke frame = .cancelled "No stroke available"
      ↔ frame = none ∨ frame = some []) ∧
    (perspective_warp_invoke frame = .cancelled "Only one stroke allowed per layer"
      ↔ ∃ f, frame = some f ∧ 2 ≤ f.length) ∧
    (∀ stroke, frame = some [stroke] → stroke ≠ [] →
      ∃ st rep, perspective_warp_invoke frame = .running st rep) := by
  rcases frame with _ | f
  · refine ⟨by simp [perspective_warp_invoke], by simp [perspective_warp_invoke], ?_⟩
    intro stroke h
    simp at h
  · rcases f with _ | ⟨s1, rest⟩
    · refine ⟨by simp [perspective_warp_invoke], by simp [perspective_warp_invoke], ?_⟩
      intro stroke h
      simp at h
    · rcases rest with _ | ⟨s2, rest2⟩
      · rcases hs : s1 with _ | ⟨p, ps⟩
        · refine ⟨by simp [perspective_warp_invoke],
            by simp [perspective_warp_invoke], ?_⟩
          intro stroke h hne
          simp only [Option.some.injEq, List.cons.injEq, and_true] at h
          exact absurd h.symm hne
        · refine ⟨by simp [perspective_warp_invoke],
            by simp [perspective_warp_invoke], ?_⟩
          intro stroke h hne
          exact ⟨_, _, rfl⟩
      · refine ⟨by simp [perspective_warp_invoke], ?_, ?_⟩
        · simp only [perspective_warp_invoke]
          constructor
          · intro _
            exact ⟨s1 :: s2 :: rest2, rfl, by simp⟩
          · intro _
            trivial
        · intro stroke h
          simp at h

/-- Witness for `perspective_warp_invoke_preconditions`: one two-point stroke
enters the modal loop. -/
theorem perspective_warp_invoke_preconditions_witness :
    (perspective_warp_invoke (some [[(1, 2), (3, 4)]])).isRunning = true := by
  obtain ⟨st, rep, hrun⟩ :=
    (perspective_warp_invoke_preconditions (some [[(1, 2), (3, 4)]])).2.2
      [(1, 2), (3, 4)] rfl (by decide)
  rw [hrun]
  rfl

/-- C4 counterexample to the original claim: a frame with exactly one stroke
whose point sequence is empty makes `invoke` raise (`min()` over an empty
sequence) rather than return `RUNNING_MODAL`. -/
theorem perspective_warp_invoke_cex :
    perspective_warp_invoke (some [[]]) = .error ∧
    (perspective_warp_invoke (some [[]])).isRunning = false :=
  ⟨rfl, rfl⟩

/-- The relative node the mask operator looks up: `next_node` for `ABOVE`,
`prev_node` for `BELOW`. -/
def relativeNode (mode : MaskMode) (active : GPLayer) : Option LayerNode :=
  match mode with
  | .ABOVE => active.next_node
  | .BELOW => active.prev_node

/-- C5: the mask operator cancels with a report and leaves the active layer
(mask list and `use_masks` flag) unchanged exactly when the relative node in
the requested direction is absent or not a layer, or when its name is already
among the mask layers; otherwise it appends that layer's name to the mask
list, sets `use_masks`, and returns `FINISHED`. -/
theorem relative_layer_mask_add_characterization (mode : MaskMode) (active : GPLayer) :
    ((relative_layer_mask_add_execute mode active
        = (.CANCELLED, active, some "No layer found") ∨
      relative_layer_mask_add_execute mode active
        = (.CANCELLED, active, some "Layer is already added as a mask"))
      ↔ ((∀ name, relativeNode mode active ≠ some (.layerNode name)) ∨
         (∃ name, relativeNode mode active = some (.layerNode name) ∧
            name ∈ active.mask_layers))) ∧
    (∀ name, relativeNode mode active = some (.layerNode name) →
      name ∉ active.mask_layers →
      relative_layer_mask_add_execute mode active
        = (.FINISHED,
           { active with mask_layers := active.mask_layers ++ [name],
                         use_masks := true },
           none)) := by
  have hexec : relative_layer_mask_add_execute mode active =
      match relativeNode mode active with
      | some (.layerNode name) =>
        if name ∈ active.mask_layers then
          (.CANCELLED, active, some "Layer is already added as a mask")
        else
          (.FINISHED,
           { active with mask_layers := active.mask_layers ++ [name],
                         use_masks := true },
           none)
      | _ => (.CANCELLED, active, some "No layer found") := by
    cases mode <;> rfl
  rcases hn : relativeNode mode active with _ | node
  · have hexec2 : relative_layer_mask_add_execute mode active
        = (.CANCELLED, active, some "No layer found") := by
      rw [hexec, hn]
    refine ⟨?_, ?_⟩
    · simp [hexec2]
    · intro name h
      simp [hn] at h
  · cases node with
    | groupNode g =>
      have hexec2 : relative_layer_mask_add_execute mode active
          = (.CANCELLED, active, some "No layer found") := by
        rw [hexec, hn]
      refine ⟨?_, ?_⟩
      · simp [hexec2]
      · intro name h
        simp [hn] at h
    | layerNode nm =>
      have hexec2 : relative_layer_mask_add_execute mode active
          = (if nm ∈ active.mask_layers then
              (.CANCELLED, active, some "Layer is already added as a mask")
            else
              (.FINISHED,
               { active with mask_layers := active.mask_layers ++ [nm],
                             use_masks := true },
               none)) := by
        rw [hexec, hn]
      by_cases hmem : nm ∈ active.mask_layers
      · rw [if_pos hmem] at hexec2
        refine ⟨?_, ?_⟩
        · simp only [hexec2]
          constructor
          · intro _
            exact Or.inr ⟨nm, rfl, hmem⟩
          · intro _
            simp
        · intro name h hnm
          simp only [Option.some.injEq, LayerNode.layerNode.injEq] at h
          subst h
          exact absurd hmem hnm
      · rw [if_neg hmem] at hexec2
        refine ⟨?_, ?_⟩
        · simp only [hexec2]
          constructor
          · intro h
            rcases h with h | h <;> simp at h
          · intro h
            rcases h with h | ⟨name, hname, hmem'⟩
            · exact absurd rfl (h nm)
            · simp only [Option.some.injEq, LayerNode.layerNode.injEq] at hname
              subst hname
              exact absurd hmem' hmem
        · intro name h hnm
          simp only [Option.some.injEq, LayerNode.layerNode.injEq] at h
          subst h
          exact hexec2

/-- Witness for `relative_layer_mask_add_characterization`: masking with the
layer above succeeds and appends it, and masking with a missing layer below
cancels. -/
theorem relative_layer_mask_add_characterization_witness :
    relative_layer_mask_add_execute .ABOVE
        ⟨["m"], false, some (.layerNode "above"), none⟩
      = (.FINISHED, ⟨["m", "above"], true, some (.layerNode "above"), none⟩, none) ∧
    (relative_layer_mask_add_execute .BELOW
        ⟨["m"], false, some (.layerNode "above"), none⟩
      = (.CANCELLED, ⟨["m"], false, some (.layerNode "above"), none⟩,
         some "No layer found") ∨
     relative_layer_mask_add_execute .BELOW
        ⟨["m"], false, some (.layerNode "above"), none⟩
      = (.CANCELLED, ⟨["m"], false, some (.layerNode "above"), none⟩,
         some "Layer is already added as a mask")) := by
  constructor
  · exact (relative_layer_mask_add_characterization .ABOVE
      ⟨["m"], false, some (.layerNode "above"), none⟩).2 "above" rfl (by decide)
  · exact (relative_layer_mask_add_characterization .BELOW
      ⟨["m"], false, some (.layerNode "above"), none⟩).1.mpr
      (Or.inl (by intro name h; simp [relativeNode] at h))
